import Mathlib

/-!
# Verification of the merklederkle Merkle-tree engine

Shallow embedding of the Go sources `merklederkle.go` and the unnamed
variant `part_000` (namespace `Part000` below, modelling only the places
where that variant differs).

Modelling conventions:
* Go `[]byte` values become `Bytes := List Nat`; only the length of a node
  is ever inspected by the code, so the byte range plays no role.
* The Keccak-256 hash is kept abstract: every operation is parameterised
  by a hash function `k : Bytes → Bytes`.  None of the verified claims
  depend on any property of Keccak beyond (for validity claims) producing
  32-byte digests, which appears as an explicit hypothesis.
* Go control flow that terminates the function is rendered with the
  `Res` outcome type below.  `Res.abort` models a Go `panic` (including
  runtime index-out-of-range panics), `Res.fail` models an explicit
  `error` return value (used by the `part_000` variant).
* Go tree indices are machine ints; inside the tree-walking loops they
  are provably non-negative (guarded by `index > 0` / `isTreeNode`), so
  those loops are modelled over `Nat`.  The stand-alone index functions
  `parentIndex` / `siblingIndex` are modelled over `Int` exactly as in
  the source.
-/

/-- Go `[]byte` (`type Bytes []byte`). -/
abbrev Bytes := List Nat

/-- Outcome of a Go computation: normal value, explicit `error` return,
or `panic` (process abort). -/
inductive Res (α : Type) where
  | ok : α → Res α
  | fail : String → Res α
  | abort : String → Res α
deriving DecidableEq, Repr

/-- Helper: `Res.map` transports a pure function over a successful outcome. -/
def Res.map {α β : Type} (f : α → β) : Res α → Res β
  | .ok a => .ok (f a)
  | .fail m => .fail m
  | .abort m => .abort m

/-- Go `bytes.Compare`: lexicographic three-way comparison, `-1`/`0`/`1`. -/
def bytesCompare : Bytes → Bytes → Int
  | [], [] => 0
  | [], _ :: _ => -1
  | _ :: _, [] => 1
  | a :: as, b :: bs => if a < b then -1 else if b < a then 1 else bytesCompare as bs

/-- Go `concatBytes` from the source (variadic concatenation, used with two
arguments by `hashPair`). -/
def concatBytes (data : List Bytes) : Bytes := data.foldl (· ++ ·) []

/-- Go `bytesEqual` from the source: length check followed by an
element-wise loop. -/
def bytesEqual : Bytes → Bytes → Bool
  | [], [] => true
  | a :: as, b :: bs => a == b && bytesEqual as bs
  | _, _ => false

/-- Go `equalsBytes` from the source (delegates to `bytesEqual`). -/
def equalsBytes (a b : Bytes) : Bool := bytesEqual a b

/-- Go `hashPair` from the source: sort the two inputs by `bytes.Compare`,
concatenate, and hash (`keccak256(concatBytes(a, b))`). -/
def hashPair (k : Bytes → Bytes) (a b : Bytes) : Bytes :=
  if bytesCompare a b > 0 then k (concatBytes [b, a]) else k (concatBytes [a, b])

/-- Go `leftChildIndex` from the source. -/
def leftChildIndex (i : Nat) : Nat := 2 * i + 1

/-- Go `rightChildIndex` from the source. -/
def rightChildIndex (i : Nat) : Nat := 2 * i + 2

/-- Go `parentIndex` from `merklederkle.go`: `(i-1)/2` for `i > 0`, and a
`panic` (`throwError`) otherwise. -/
def parentIndex (i : Int) : Res Int :=
  if i > 0 then .ok ((i - 1) / 2) else .abort "Root has no parent"

/-- Go `siblingIndex` from `merklederkle.go`: `i - (-1)^(i % 2)` for `i > 0`
(the float `math.Pow(-1, i%2)` is exactly `-1` for odd `i` and `1` for
even `i`, so the result is `i+1` for odd `i` and `i-1` for even `i`),
and a `panic` otherwise. -/
def siblingIndex (i : Int) : Res Int :=
  if i > 0 then .ok (if i % 2 = 1 then i + 1 else i - 1) else .abort "Root has no siblings"

/-- Go `parentIndex` restricted to the guarded call sites (`index > 0` in
every loop of the source), over `Nat`. -/
def parentIdx (i : Nat) : Nat := (i - 1) / 2

/-- Go `siblingIndex` restricted to the guarded call sites, over `Nat`. -/
def siblingIdx (i : Nat) : Nat := if i % 2 = 1 then i + 1 else i - 1

/-- On the guarded domain the `Nat` version of the parent function agrees
with the `Int` model of the source. -/
theorem parentIndex_eq_parentIdx (i : Nat) (h : 0 < i) :
    parentIndex (i : Int) = .ok ((parentIdx i : Nat) : Int) := by
  have hi : (0 : Int) < (i : Int) := by exact_mod_cast h
  simp only [parentIndex, if_pos hi, parentIdx]
  have h1 : (i : Int) - 1 = ((i - 1 : Nat) : Int) := by omega
  rw [h1, Int.ofNat_ediv]
  norm_num

/-- On the guarded domain the `Nat` version of the sibling function agrees
with the `Int` model of the source. -/
theorem siblingIndex_eq_siblingIdx (i : Nat) (h : 0 < i) :
    siblingIndex (i : Int) = .ok ((siblingIdx i : Nat) : Int) := by
  have hi : (0 : Int) < (i : Int) := by exact_mod_cast h
  simp only [siblingIndex, if_pos hi, siblingIdx]
  congr 1
  by_cases hp : i % 2 = 1
  · have hpi : (i : Int) % 2 = 1 := by omega
    rw [if_pos hpi, if_pos hp]
    omega
  · have hpi : ¬((i : Int) % 2 = 1) := by omega
    rw [if_neg hpi, if_neg hp]
    omega

/-- Lemma: `bytesCompare` is antisymmetric: swapping the arguments negates the
result. -/
theorem bytesCompare_swap (a b : Bytes) : bytesCompare a b = -bytesCompare b a := by
  induction a generalizing b with
  | nil => cases b <;> simp [bytesCompare]
  | cons x as ih =>
    cases b with
    | nil => simp [bytesCompare]
    | cons y bs =>
      simp only [bytesCompare]
      rcases Nat.lt_trichotomy x y with h | h | h
      · rw [if_pos h, if_neg (by omega : ¬ y < x), if_pos h]
      · rw [if_neg (by omega), if_neg (by omega), if_neg (by omega), if_neg (by omega)]
        exact ih bs
      · rw [if_neg (by omega), if_pos h, if_pos h]; rfl

/-- Lemma: `bytesCompare` returns `0` exactly on equal byte strings. -/
theorem bytesCompare_eq_zero_iff (a b : Bytes) : bytesCompare a b = 0 ↔ a = b := by
  induction a generalizing b with
  | nil => cases b <;> simp [bytesCompare]
  | cons x as ih =>
    cases b with
    | nil => simp [bytesCompare]
    | cons y bs =>
      simp only [bytesCompare]
      rcases Nat.lt_trichotomy x y with h | h | h
      · rw [if_pos h]
        constructor
        · intro hc; omega
        · intro hc
          injection hc with h1 h2
          omega
      · subst h
        rw [if_neg (by omega), if_neg (by omega)]
        rw [ih bs]
        constructor
        · intro hc; rw [hc]
        · intro hc; injection hc
      · rw [if_neg (by omega), if_pos h]
        constructor
        · intro hc; omega
        · intro hc
          injection hc with h1 h2
          omega

/-- Lemma: `bytesCompare` is transitive on the non-strict side. -/
theorem bytesCompare_trans (a b c : Bytes) (hab : bytesCompare a b ≤ 0)
    (hbc : bytesCompare b c ≤ 0) : bytesCompare a c ≤ 0 := by
  induction a generalizing b c with
  | nil => cases c <;> simp [bytesCompare]
  | cons x as ih =>
    cases b with
    | nil => simp [bytesCompare] at hab
    | cons y bs =>
      cases c with
      | nil => simp [bytesCompare] at hbc
      | cons z cs =>
        simp only [bytesCompare] at hab hbc ⊢
        rcases Nat.lt_trichotomy x y with h1 | h1 | h1
        · rcases Nat.lt_trichotomy y z with h2 | h2 | h2
          · rw [if_pos (by omega : x < z)]; omega
          · subst h2; rw [if_pos h1]; omega
          · rw [if_neg (by omega), if_pos h2] at hbc; omega
        · subst h1
          rcases Nat.lt_trichotomy x z with h2 | h2 | h2
          · rw [if_pos h2]; omega
          · subst h2
            rw [if_neg (by omega), if_neg (by omega)] at hab hbc ⊢
            exact ih bs cs hab hbc
          · rw [if_neg (by omega), if_pos h2] at hbc; omega
        · rw [if_neg (by omega), if_pos h1] at hab; omega

/-- Lemma: `bytesCompare` against oneself is `0`. -/
theorem bytesCompare_self (a : Bytes) : bytesCompare a a = 0 :=
  (bytesCompare_eq_zero_iff a a).mpr rfl

/-- Lemma: `bytesEqual` decides equality of byte strings. -/
theorem bytesEqual_iff (a b : Bytes) : bytesEqual a b = true ↔ a = b := by
  induction a generalizing b with
  | nil => cases b <;> simp [bytesEqual]
  | cons x as ih =>
    cases b with
    | nil => simp [bytesEqual]
    | cons y bs => simp [bytesEqual, ih]

/-- Claim C4 core: `hashPair` is commutative, because the two inputs are
put in `bytes.Compare` order before hashing. -/
theorem hashPair_comm (k : Bytes → Bytes) (a b : Bytes) :
    hashPair k a b = hashPair k b a := by
  unfold hashPair
  rcases lt_trichotomy (bytesCompare a b) 0 with h | h | h
  · have hba : bytesCompare b a > 0 := by rw [bytesCompare_swap b a]; omega
    rw [if_neg (by omega), if_pos hba]
  · have hab : a = b := (bytesCompare_eq_zero_iff a b).mp h
    subst hab
    rfl
  · have hba : ¬ bytesCompare b a > 0 := by rw [bytesCompare_swap b a]; omega
    rw [if_pos h, if_neg hba]

/-- Go `isTreeNode` from the source: index in range.  (The Go `i >= 0` half
of the check is automatic over `Nat`; negative indices never reach the
tree-walking code, which guards with `isTreeNode` / `index > 0`.) -/
def isTreeNode (tree : List Bytes) (i : Nat) : Bool := decide (i < tree.length)

/-- Go `isInternalNode` from the source. -/
def isInternalNode (tree : List Bytes) (i : Nat) : Bool :=
  isTreeNode tree (leftChildIndex i)

/-- Go `isLeafNode` from the source (its two `fmt.Printf` debug statements
have no effect on the returned value). -/
def isLeafNode (tree : List Bytes) (i : Nat) : Bool :=
  isTreeNode tree i && !isInternalNode tree i

/-- Go `isValidMerkleNode` from the source: exactly 32 bytes. -/
def isValidMerkleNode (node : Bytes) : Bool := node.length == 32

/-- The byte-lexicographic order used by the tree builder
(`bytes.Compare(leaves[i], leaves[j]) < 0` as a non-strict relation). -/
def bytesLeP (a b : Bytes) : Prop := bytesCompare a b ≤ 0

instance : DecidableRel bytesLeP := fun a b =>
  inferInstanceAs (Decidable (bytesCompare a b ≤ 0))

instance : IsTotal Bytes bytesLeP where
  total a b := by
    unfold bytesLeP
    have h := bytesCompare_swap a b
    omega

instance : IsTrans Bytes bytesLeP where
  trans a b c := bytesCompare_trans a b c

instance : IsAntisymm Bytes bytesLeP where
  antisymm a b h1 h2 := by
    have h := bytesCompare_swap a b
    exact (bytesCompare_eq_zero_iff a b).mp (by unfold bytesLeP at h1 h2; omega)

/-- The `sort.Slice` call of `makeMerkleTree`: ascending byte-lexicographic
sort.  `sort.Slice` is an unstable comparison sort, but over a total
antisymmetric order a sorted permutation of a list is unique as a list of
values, so insertion sort computes the same function. -/
def sortLeaves (leaves : List Bytes) : List Bytes := List.insertionSort bytesLeP leaves

/-- The bottom-up hashing loop of `makeMerkleTree`:
`for i := len(tree)-1-len(leaves); i >= 0; i-- { tree[i] = hashPair(tree[2i+1], tree[2i+2]) }`,
phrased as a recursion that fills indices `m-1, m-2, ..., 0`. -/
def buildFrom (k : Bytes → Bytes) (t : List Bytes) : Nat → List Bytes
  | 0 => t
  | m + 1 =>
    buildFrom k
      (t.set m (hashPair k (t.getD (leftChildIndex m) []) (t.getD (rightChildIndex m) []))) m

/-- Go `makeMerkleTree` from `merklederkle.go`, with the in-place mutation of
the caller's `leaves` slice made explicit: the `sort.Slice` call reorders
the caller's slice, so the model returns the pair
(contents of the argument slice after the call, returned tree).
The initial array has the `len(leaves)` sorted leaves in its trailing
slots in reverse order (`tree[len(tree)-1-i] = leaf_i`), preceded by
`len(leaves)-1` still-nil slots, which the `buildFrom` loop then fills
from index `len(tree)-1-len(leaves)` down to `0`. -/
def makeMerkleTreeM (k : Bytes → Bytes) (leaves : List Bytes) :
    Res (List Bytes × List Bytes) :=
  if leaves.any (fun l => !isValidMerkleNode l) then
    .abort "Merkle tree nodes must be Bytes of length 32"
  else if leaves.length = 0 then .abort "Expected non-zero number of leaves"
  else
    let sorted := sortLeaves leaves
    let t0 := List.replicate (leaves.length - 1) ([] : Bytes) ++ sorted.reverse
    .ok (sorted, buildFrom k t0 (leaves.length - 1))

/-- Go `makeMerkleTree`'s return value (the built tree). -/
def makeMerkleTree (k : Bytes → Bytes) (leaves : List Bytes) : Res (List Bytes) :=
  (makeMerkleTreeM k leaves).map (fun r => r.2)

/-- The sibling-collecting loop of `getProof`:
`for index > 0 { proof = append(proof, tree[siblingIndex(index)]); index = parentIndex(index) }`.
`siblingIndex`/`parentIndex` are called under the guard `index > 0`, where
they cannot fail (`siblingIndex_eq_siblingIdx`, `parentIndex_eq_parentIdx`). -/
def getProofLoop (tree : List Bytes) (index : Nat) : List Bytes :=
  if index > 0 then
    tree.getD (siblingIdx index) [] :: getProofLoop tree (parentIdx index)
  else []
termination_by index
decreasing_by simp only [parentIdx]; omega

/-- Go `getProof` from `merklederkle.go`; `checkLeafNode` panics
("Index is not a leaf") when the index is not a leaf. -/
def getProof (tree : List Bytes) (index : Nat) : Res (List Bytes) :=
  if isLeafNode tree index then .ok (getProofLoop tree index)
  else .abort "Index is not a leaf"

/-- Go `processProof` from `merklederkle.go`: validates the leaf and every
proof element, then folds `hashPair` over the proof. -/
def processProof (k : Bytes → Bytes) (leaf : Bytes) (proof : List Bytes) : Res Bytes :=
  if !isValidMerkleNode leaf then .abort "Merkle tree nodes must be Bytes of length 32"
  else if proof.any (fun p => !isValidMerkleNode p) then
    .abort "Merkle tree nodes must be Bytes of length 32"
  else .ok (proof.foldl (hashPair k) leaf)

/-- Go `MultiProof` from the source. -/
structure MultiProof where
  Leaves : List Bytes
  Proof : List Bytes
  ProofFlags : List Bool
deriving DecidableEq, Repr

/-- Go `sortIndicesDesc` from the source: descending sort of the index list
(`sort.Slice` with `>`; as with `sortLeaves`, the sorted permutation is
unique over `Nat`, so insertion sort computes the same function). -/
def sortIndicesDesc (indices : List Nat) : List Nat :=
  List.insertionSort (· ≥ ·) indices

/-- Go `hasDuplicateIndex` from the source (the seen-map loop returns `true`
exactly when some index occurs twice). -/
def hasDuplicateIndex : List Nat → Bool
  | [] => false
  | i :: rest => rest.contains i || hasDuplicateIndex rest

/-- Go `getIndicesValues` from the source. -/
def getIndicesValues (tree : List Bytes) (indices : List Nat) : List Bytes :=
  indices.map (fun i => tree.getD i [])

/-- Go `countFalse` from the source. -/
def countFalse : List Bool → Nat
  | [] => 0
  | f :: fs => (if f then 0 else 1) + countFalse fs

/-- The queue loop of `getMultiProof`
(`for len(stack) > 0 && stack[0] > 0 { ... }`), returning the final queue
together with the accumulated proof and flag sequences.  `siblingIndex`
and `parentIndex` are called on the dequeued head `j > 0`, where they
cannot fail. -/
def multiLoop (tree : List Bytes) (stack : List Nat) (proof : List Bytes)
    (proofFlags : List Bool) : List Nat × List Bytes × List Bool :=
  match stack with
  | [] => ([], proof, proofFlags)
  | j :: rest =>
    if _hj : j = 0 then (j :: rest, proof, proofFlags)
    else
      match rest with
      | s' :: rest' =>
        if siblingIdx j = s' then
          multiLoop tree (rest' ++ [parentIdx j]) proof (proofFlags ++ [true])
        else
          multiLoop tree ((s' :: rest') ++ [parentIdx j])
            (proof ++ [tree.getD (siblingIdx j) []]) (proofFlags ++ [false])
      | [] =>
        multiLoop tree [parentIdx j]
          (proof ++ [tree.getD (siblingIdx j) []]) (proofFlags ++ [false])
termination_by stack.sum
decreasing_by
  all_goals simp only [List.sum_cons, List.sum_append, List.sum_nil, parentIdx]
  all_goals omega

/-- Go `getMultiProof` from `merklederkle.go`: `checkLeafNode` on every
requested index, descending sort, duplicate check, queue loop, and the
degenerate empty-request case appending the root to the proof. -/
def getMultiProof (tree : List Bytes) (indices : List Nat) : Res MultiProof :=
  if indices.any (fun i => !isLeafNode tree i) then .abort "Index is not a leaf"
  else
    let sorted := sortIndicesDesc indices
    if hasDuplicateIndex sorted then .abort "Cannot prove duplicated index"
    else
      let r := multiLoop tree sorted [] []
      let proof := if sorted.length = 0 then r.2.1 ++ [tree.getD 0 []] else r.2.1
      .ok ⟨getIndicesValues tree sorted, proof, r.2.2⟩

/-- The flag-replay loop of `processMultiProof`.  The Go code reads
`stack[0]` / `proof[0]` without a length guard; reading the front of an
empty slice is a Go runtime panic, modelled as
`.abort "index out of range"`. -/
def replayLoop (k : Bytes → Bytes) :
    List Bool → List Bytes → List Bytes → Res (List Bytes × List Bytes)
  | [], stack, proof => .ok (stack, proof)
  | flag :: fs, stack, proof =>
    match stack with
    | [] => .abort "index out of range"
    | a :: stack1 =>
      if flag then
        match stack1 with
        | [] => .abort "index out of range"
        | b :: stack2 => replayLoop k fs (stack2 ++ [hashPair k a b]) proof
      else
        match proof with
        | [] => .abort "index out of range"
        | b :: proof1 => replayLoop k fs (stack1 ++ [hashPair k a b]) proof1

/-- Go `processMultiProof` from `merklederkle.go`: node validation, the two
shape checks (both Go panics), the flag replay, and the final result
selection (`stack[len(stack)-1]`, else `proof[0]`, else the nil value). -/
def processMultiProof (k : Bytes → Bytes) (multiproof : MultiProof) : Res Bytes :=
  if multiproof.Leaves.any (fun l => !isValidMerkleNode l) then
    .abort "Merkle tree nodes must be Bytes of length 32"
  else if multiproof.Proof.any (fun p => !isValidMerkleNode p) then
    .abort "Merkle tree nodes must be Bytes of length 32"
  else if multiproof.Proof.length < countFalse multiproof.ProofFlags then
    .abort "Invalid multiproof format"
  else if multiproof.Leaves.length + multiproof.Proof.length ≠
      multiproof.ProofFlags.length + 1 then
    .abort "Provided leaves and multiproof are not compatible"
  else
    match replayLoop k multiproof.ProofFlags multiproof.Leaves multiproof.Proof with
    | .ok (stack, proof) =>
      .ok (if stack.length > 0 then stack.getLastD []
           else if proof.length > 0 then proof.headD [] else [])
    | .fail m => .fail m
    | .abort m => .abort m

/-- Go `isValidMerkleTree` from the source: every node is 32 bytes; a node
with both children in range equals their canonical pair hash; a node with
exactly one child in range makes the tree invalid; the empty tree is
invalid. -/
def isValidMerkleTree (k : Bytes → Bytes) (tree : List Bytes) : Bool :=
  ((List.range tree.length).all fun i =>
    isValidMerkleNode (tree.getD i []) &&
    (if tree.length ≤ rightChildIndex i then !(decide (leftChildIndex i < tree.length))
     else equalsBytes (tree.getD i [])
        (hashPair k (tree.getD (leftChildIndex i) []) (tree.getD (rightChildIndex i) []))))
  && decide (tree.length > 0)

namespace Part000

/-- Go `parentIndex` from the `part_000` variant: returns an explicit error
(not a panic) at the root. -/
def parentIndex (i : Int) : Res Int :=
  if i > 0 then .ok ((i - 1) / 2) else .fail "Root has no parent"

/-- Go `siblingIndex` from the `part_000` variant: in that file `throwError`
merely CONSTRUCTS an error, and `siblingIndex` discards it, so for `i ≤ 0`
the function returns the index `0` normally, with no failure of any kind. -/
def siblingIndex (i : Int) : Int :=
  if i > 0 then (if i % 2 = 1 then i + 1 else i - 1) else 0

/-- Go `MakeMerkleTree` from the `part_000` variant: it calls
`checkValidMerkleNode(leaf)` on every leaf but DISCARDS the returned
error, so invalid (non-32-byte) leaves are not rejected; only the
empty-input panic remains. -/
def MakeMerkleTree (k : Bytes → Bytes) (leaves : List Bytes) : Res (List Bytes) :=
  if leaves.length = 0 then .abort "Expected non-zero number of leaves"
  else
    .ok (buildFrom k
      (List.replicate (leaves.length - 1) ([] : Bytes) ++ (sortLeaves leaves).reverse)
      (leaves.length - 1))

end Part000

/-- A concrete stand-in hash with 32-byte output, used to instantiate the
abstract hash parameter in witnesses and counterexamples. -/
def testHash (x : Bytes) : Bytes := List.replicate 32 (x.sum % 251)

theorem testHash_length (x : Bytes) : (testHash x).length = 32 := by
  simp [testHash]

/-- Lemma: `List.set` seen through `getD`. -/
theorem getD_set {α : Type} (l : List α) (i j : Nat) (x d : α) :
    (l.set i x).getD j d = if i = j ∧ j < l.length then x else l.getD j d := by
  induction l generalizing i j with
  | nil => simp
  | cons a t ih =>
    cases i with
    | zero =>
      cases j with
      | zero => simp [List.set]
      | succ j' => simp [List.set]
    | succ i' =>
      cases j with
      | zero => simp [List.set]
      | succ j' =>
        simp only [List.set, List.getD_cons_succ, ih, List.length_cons]
        by_cases hc : i' = j' ∧ j' < t.length
        · rw [if_pos hc, if_pos ⟨by omega, by omega⟩]
        · rw [if_neg hc, if_neg (by omega)]

/-- Lemma: `buildFrom` preserves the array length. -/
theorem buildFrom_length (k : Bytes → Bytes) (t : List Bytes) (m : Nat) :
    (buildFrom k t m).length = t.length := by
  induction m generalizing t with
  | zero => rfl
  | succ m ih => simp [buildFrom, ih]

/-- Positions at or above the loop counter are never written by
`buildFrom`. -/
theorem buildFrom_getD_of_le (k : Bytes → Bytes) (t : List Bytes) (m j : Nat)
    (h : m ≤ j) : (buildFrom k t m).getD j [] = t.getD j [] := by
  induction m generalizing t with
  | zero => rfl
  | succ m ih =>
    rw [buildFrom, ih _ (by omega), getD_set]
    rw [if_neg (by omega)]

/-- Every position below the loop counter ends up holding the canonical
hash of its two children. -/
theorem buildFrom_hash (k : Bytes → Bytes) (t : List Bytes) (m : Nat)
    (hm : m ≤ t.length) : ∀ i, i < m →
    (buildFrom k t m).getD i [] =
      hashPair k ((buildFrom k t m).getD (leftChildIndex i) [])
        ((buildFrom k t m).getD (rightChildIndex i) []) := by
  induction m generalizing t with
  | zero => intro i hi; omega
  | succ m ih =>
    intro i hi
    rw [buildFrom]
    rcases Nat.lt_or_ge i m with hlt | hge
    · exact ih _ (by simp; omega) i hlt
    · have him : i = m := by omega
      subst him
      have hl : leftChildIndex i ≠ i := by simp [leftChildIndex]; omega
      have hr : rightChildIndex i ≠ i := by simp [rightChildIndex]; omega
      rw [buildFrom_getD_of_le _ _ _ _ (le_refl i),
        buildFrom_getD_of_le _ _ _ _ (by simp [leftChildIndex]; omega),
        buildFrom_getD_of_le _ _ _ _ (by simp [rightChildIndex]; omega)]
      rw [getD_set, if_pos ⟨rfl, by omega⟩]
      rw [getD_set, if_neg (by simp [leftChildIndex]; omega)]
      rw [getD_set, if_neg (by simp [rightChildIndex]; omega)]

/-- The internal-hash invariant of a flat tree: every in-range pair of
children hashes to its parent slot. -/
def hashOk (k : Bytes → Bytes) (tree : List Bytes) : Prop :=
  ∀ i, rightChildIndex i < tree.length →
    tree.getD i [] =
      hashPair k (tree.getD (leftChildIndex i) []) (tree.getD (rightChildIndex i) [])

/-- Structure of a successful `makeMerkleTreeM` run: the post-call
argument slice is the sorted leaves; the tree has length `2N-1`, its
internal nodes satisfy `hashOk`, and its trailing `N` slots hold the
sorted leaves in reverse order. -/
theorem makeMerkleTreeM_ok (k : Bytes → Bytes) (leaves lv tree : List Bytes)
    (ht : makeMerkleTreeM k leaves = .ok (lv, tree)) :
    lv = sortLeaves leaves ∧ 1 ≤ leaves.length ∧
      tree.length = 2 * leaves.length - 1 ∧ hashOk k tree ∧
      (∀ j, leaves.length - 1 ≤ j → j < tree.length →
        tree.getD j [] = (sortLeaves leaves).reverse.getD (j - (leaves.length - 1)) []) := by
  unfold makeMerkleTreeM at ht
  by_cases h1 : leaves.any (fun l => !isValidMerkleNode l)
  · rw [if_pos h1] at ht; cases ht
  rw [if_neg h1] at ht
  by_cases h2 : leaves.length = 0
  · rw [if_pos h2] at ht; cases ht
  rw [if_neg h2] at ht
  simp only [Res.ok.injEq, Prod.mk.injEq] at ht
  obtain ⟨hlv, htr⟩ := ht
  have hsortlen : (sortLeaves leaves).length = leaves.length :=
    (List.perm_insertionSort bytesLeP leaves).length_eq
  have ht0len : (List.replicate (leaves.length - 1) ([] : Bytes) ++
      (sortLeaves leaves).reverse).length = 2 * leaves.length - 1 := by
    simp [hsortlen]; omega
  refine ⟨hlv.symm, by omega, ?_, ?_, ?_⟩
  · rw [← htr, buildFrom_length, ht0len]
  · intro i hri
    have hlen : tree.length = 2 * leaves.length - 1 := by
      rw [← htr, buildFrom_length, ht0len]
    have him : i < leaves.length - 1 := by
      simp only [rightChildIndex] at hri; omega
    rw [← htr]
    exact buildFrom_hash k _ _ (by omega) i him
  · intro j hj1 hj2
    have hlen : tree.length = 2 * leaves.length - 1 := by
      rw [← htr, buildFrom_length, ht0len]
    rw [← htr, buildFrom_getD_of_le _ _ _ _ hj1,
      List.getD_append_right _ _ _ _ (by simp; omega)]
    simp

/-- All nodes of a tree built by `makeMerkleTreeM` from 32-byte leaves
are 32 bytes, provided the hash has 32-byte digests. -/
theorem makeMerkleTreeM_nodes32 (k : Bytes → Bytes)
    (hk : ∀ x, (k x).length = 32) (leaves lv tree : List Bytes)
    (h32 : ∀ l ∈ leaves, l.length = 32)
    (ht : makeMerkleTreeM k leaves = .ok (lv, tree)) :
    ∀ j, j < tree.length → (tree.getD j []).length = 32 := by
  obtain ⟨hlv, hN, hlen, hhash, hleaf⟩ := makeMerkleTreeM_ok k leaves lv tree ht
  intro j hj
  rcases Nat.lt_or_ge j (leaves.length - 1) with hjm | hjm
  · have hr : rightChildIndex j < tree.length := by
      simp only [rightChildIndex]; omega
    rw [hhash j hr]
    unfold hashPair
    by_cases hc : bytesCompare (tree.getD (leftChildIndex j) [])
        (tree.getD (rightChildIndex j) []) > 0
    · rw [if_pos hc]; exact hk _
    · rw [if_neg hc]; exact hk _
  · rw [hleaf j hjm hj]
    have hsortlen : (sortLeaves leaves).length = leaves.length :=
      (List.perm_insertionSort bytesLeP leaves).length_eq
    have hidx : j - (leaves.length - 1) < (sortLeaves leaves).reverse.length := by
      simp [hsortlen]; omega
    have hmem : (sortLeaves leaves).reverse.getD (j - (leaves.length - 1)) [] ∈
        (sortLeaves leaves).reverse := by
      rw [List.getD_eq_getElem _ _ hidx]
      exact List.getElem_mem hidx
    rw [List.mem_reverse] at hmem
    exact h32 _ ((List.perm_insertionSort bytesLeP leaves).mem_iff.mp hmem)

/-- In an odd-length tree the sibling of an in-range non-root index is in
range. -/
theorem siblingIdx_lt (L j : Nat) (hodd : L % 2 = 1) (hj0 : 0 < j) (hjl : j < L) :
    siblingIdx j < L := by
  unfold siblingIdx
  by_cases hp : j % 2 = 1
  · rw [if_pos hp]; omega
  · rw [if_neg hp]; omega

/-- Hashing an in-range non-root node with its sibling yields its parent,
in any tree satisfying `hashOk`. -/
theorem hashPair_sibling (k : Bytes → Bytes) (tree : List Bytes)
    (hodd : tree.length % 2 = 1) (hh : hashOk k tree) (j : Nat)
    (hj0 : 0 < j) (hjl : j < tree.length) :
    hashPair k (tree.getD j []) (tree.getD (siblingIdx j) []) =
      tree.getD (parentIdx j) [] := by
  by_cases hp : j % 2 = 1
  · have hs : siblingIdx j = j + 1 := by unfold siblingIdx; rw [if_pos hp]
    have hl : leftChildIndex (parentIdx j) = j := by
      unfold leftChildIndex parentIdx; omega
    have hr : rightChildIndex (parentIdx j) = j + 1 := by
      unfold rightChildIndex parentIdx; omega
    have hrl : rightChildIndex (parentIdx j) < tree.length := by rw [hr]; omega
    rw [hs, (by rw [hh _ hrl, hl, hr] :
      tree.getD (parentIdx j) [] =
        hashPair k (tree.getD j []) (tree.getD (j + 1) []))]
  · have hs : siblingIdx j = j - 1 := by unfold siblingIdx; rw [if_neg hp]
    have hl : leftChildIndex (parentIdx j) = j - 1 := by
      unfold leftChildIndex parentIdx; omega
    have hr : rightChildIndex (parentIdx j) = j := by
      unfold rightChildIndex parentIdx; omega
    have hrl : rightChildIndex (parentIdx j) < tree.length := by rw [hr]; omega
    rw [hs, (by rw [hh _ hrl, hl, hr] :
      tree.getD (parentIdx j) [] =
        hashPair k (tree.getD (j - 1) []) (tree.getD j [])),
      hashPair_comm]

/-- Folding `hashPair` along the sibling path from any in-range node
reaches the root slot. -/
theorem getProofLoop_fold (k : Bytes → Bytes) (tree : List Bytes)
    (hodd : tree.length % 2 = 1) (hh : hashOk k tree) :
    ∀ j, j < tree.length →
      (getProofLoop tree j).foldl (hashPair k) (tree.getD j []) = tree.getD 0 [] := by
  intro j
  induction j using Nat.strong_induction_on with
  | _ j ih =>
    intro hjl
    rcases Nat.eq_zero_or_pos j with hj0 | hj0
    · subst hj0
      rw [getProofLoop, if_neg (by omega), List.foldl_nil]
    · rw [getProofLoop, if_pos hj0, List.foldl_cons,
        hashPair_sibling k tree hodd hh j hj0 hjl]
      have hplt : parentIdx j < j := by unfold parentIdx; omega
      exact ih (parentIdx j) hplt (by omega)

/-- Every element of the sibling path is a value stored in the tree. -/
theorem getProofLoop_mem (tree : List Bytes) (hodd : tree.length % 2 = 1) :
    ∀ j, j < tree.length → ∀ x ∈ getProofLoop tree j,
      ∃ s, s < tree.length ∧ x = tree.getD s [] := by
  intro j
  induction j using Nat.strong_induction_on with
  | _ j ih =>
    intro hjl x hx
    rcases Nat.eq_zero_or_pos j with hj0 | hj0
    · subst hj0
      rw [getProofLoop, if_neg (by omega)] at hx
      cases hx
    · rw [getProofLoop, if_pos hj0] at hx
      rcases List.mem_cons.mp hx with hx | hx
      · exact ⟨siblingIdx j, siblingIdx_lt tree.length j hodd hj0 hjl, hx⟩
      · have hplt : parentIdx j < j := by unfold parentIdx; omega
        exact ih (parentIdx j) hplt (by omega) x hx

/-- Lemma: `isLeafNode` unfolded to arithmetic. -/
theorem isLeafNode_iff (tree : List Bytes) (i : Nat) :
    isLeafNode tree i = true ↔ i < tree.length ∧ tree.length ≤ 2 * i + 1 := by
  simp only [isLeafNode, isInternalNode, isTreeNode, leftChildIndex,
    Bool.and_eq_true, Bool.not_eq_true', decide_eq_true_eq, decide_eq_false_iff_not]
  omega

/-- Lemma: `isValidMerkleNode` unfolded. -/
theorem isValidMerkleNode_iff (node : Bytes) :
    isValidMerkleNode node = true ↔ node.length = 32 := by
  unfold isValidMerkleNode
  exact beq_iff_eq

/-- Convenience form of `makeMerkleTree` success. -/
theorem makeMerkleTree_ok (k : Bytes → Bytes) (leaves tree : List Bytes)
    (ht : makeMerkleTree k leaves = .ok tree) :
    ∃ lv, makeMerkleTreeM k leaves = .ok (lv, tree) := by
  unfold makeMerkleTree at ht
  cases hM : makeMerkleTreeM k leaves with
  | ok p =>
    rw [hM] at ht
    simp only [Res.map, Res.ok.injEq] at ht
    exact ⟨p.1, by rw [← ht]⟩
  | fail m => rw [hM] at ht; cases ht
  | abort m => rw [hM] at ht; cases ht

/-- Claim C2: for a tree built by `makeMerkleTree` from 32-byte leaves,
`processProof(tree[i], getProof(tree, i))` recomputes the root `tree[0]`
for every leaf index `i`. -/
theorem claim2_processProof_getProof (k : Bytes → Bytes)
    (hk : ∀ x, (k x).length = 32) (leaves tree : List Bytes)
    (h32 : ∀ l ∈ leaves, l.length = 32)
    (ht : makeMerkleTree k leaves = .ok tree) (i : Nat)
    (hi : isLeafNode tree i = true) :
    ∃ prf, getProof tree i = .ok prf ∧
      processProof k (tree.getD i []) prf = .ok (tree.getD 0 []) := by
  obtain ⟨lv, hM⟩ := makeMerkleTree_ok k leaves tree ht
  obtain ⟨hlv, hN, hlen, hhash, hleaf⟩ := makeMerkleTreeM_ok k leaves lv tree hM
  have hn32 := makeMerkleTreeM_nodes32 k hk leaves lv tree h32 hM
  have hodd : tree.length % 2 = 1 := by omega
  obtain ⟨hil, hileaf⟩ := (isLeafNode_iff tree i).mp hi
  refine ⟨getProofLoop tree i, ?_, ?_⟩
  · unfold getProof
    rw [if_pos hi]
  · unfold processProof
    have hleaf32 : isValidMerkleNode (tree.getD i []) = true :=
      (isValidMerkleNode_iff _).mpr (hn32 i hil)
    rw [if_neg (by rw [hleaf32]; simp)]
    have hany : ((getProofLoop tree i).any fun p => !isValidMerkleNode p) = false := by
      rw [List.any_eq_false]
      intro p hp
      obtain ⟨s, hs, hps⟩ := getProofLoop_mem tree hodd i hil p hp
      rw [hps, (isValidMerkleNode_iff _).mpr (hn32 s hs)]
      simp
    rw [if_neg (by rw [hany]; simp)]
    rw [getProofLoop_fold k tree hodd hhash i hil]

/-- Claim C3: a tree built by `makeMerkleTree` from 32-byte leaves passes
`isValidMerkleTree`. -/
theorem claim3_isValidMerkleTree (k : Bytes → Bytes)
    (hk : ∀ x, (k x).length = 32) (leaves tree : List Bytes)
    (h32 : ∀ l ∈ leaves, l.length = 32)
    (ht : makeMerkleTree k leaves = .ok tree) :
    isValidMerkleTree k tree = true := by
  obtain ⟨lv, hM⟩ := makeMerkleTree_ok k leaves tree ht
  obtain ⟨hlv, hN, hlen, hhash, hleaf⟩ := makeMerkleTreeM_ok k leaves lv tree hM
  have hn32 := makeMerkleTreeM_nodes32 k hk leaves lv tree h32 hM
  have hodd : tree.length % 2 = 1 := by omega
  unfold isValidMerkleTree
  rw [Bool.and_eq_true]
  constructor
  · rw [List.all_eq_true]
    intro i hi
    rw [List.mem_range] at hi
    rw [Bool.and_eq_true]
    refine ⟨(isValidMerkleNode_iff _).mpr (hn32 i hi), ?_⟩
    by_cases hr : tree.length ≤ rightChildIndex i
    · rw [if_pos hr]
      simp only [rightChildIndex] at hr
      simp only [leftChildIndex, Bool.not_eq_true', decide_eq_false_iff_not]
      omega
    · rw [if_neg hr]
      rw [hhash i (by omega)]
      unfold equalsBytes
      exact (bytesEqual_iff _ _).mpr rfl
  · rw [decide_eq_true_eq]
    omega

/-- Claim C4: `hashPair` is commutative (for all byte strings, in
particular all 32-byte values). -/
theorem claim4_hashPair_comm (k : Bytes → Bytes) (a b : Bytes) :
    hashPair k a b = hashPair k b a :=
  hashPair_comm k a b

/-- Claim C5 divergence, evaluated: a malformed `MultiProof` (here the
empty one, which violates `len(leaves)+len(proof) == len(flags)+1`) makes
`processMultiProof` panic (`Res.abort`, modelling Go `panic`) instead of
returning an explicit error value. -/
theorem claim5_processMultiProof_panics :
    processMultiProof testHash ⟨[], [], []⟩ =
      .abort "Provided leaves and multiproof are not compatible" := by rfl

/-- A 31-byte value, rejected by `isValidMerkleNode`. -/
def badLeaf : Bytes := List.replicate 31 7

/-- Claim C6 divergence, evaluated: the `part_000` variant's
`MakeMerkleTree` discards the `checkValidMerkleNode` results, so a
31-byte leaf is accepted and used as a tree node (here it becomes the
whole one-node tree), with no validation error. -/
theorem claim6_part000_accepts_short_leaf :
    Part000.MakeMerkleTree testHash [badLeaf] = .ok [badLeaf] ∧
      isValidMerkleNode badLeaf = false := by
  exact ⟨by rfl, by rfl⟩

/-- Claim C7 divergence, evaluated: in the `part_000` variant
`siblingIndex 0` returns the index `0` with no failure (the constructed
error is discarded), while in `merklederkle.go` both `parentIndex 0` and
`siblingIndex 0` panic rather than returning an error value
(`part_000`'s `parentIndex 0` does return an explicit error). -/
theorem claim7_sibling_root :
    Part000.siblingIndex 0 = 0 ∧
      parentIndex 0 = .abort "Root has no parent" ∧
      siblingIndex 0 = .abort "Root has no siblings" ∧
      Part000.parentIndex 0 = .fail "Root has no parent" := by
  exact ⟨by rfl, by rfl, by rfl, by rfl⟩

/-- Constants of 32 bytes for witnesses and counterexamples. -/
def wA : Bytes := List.replicate 32 1

/-- Second 32-byte constant (`wA < wB` byte-lexicographically). -/
def wB : Bytes := List.replicate 32 2

/-- Third 32-byte constant. -/
def wC : Bytes := List.replicate 32 3

/-- Claim C9 counterexample: `makeMerkleTree` sorts the caller's slice in
place (Go `sort.Slice` mutates the argument), so after a call on
`[wB, wA]` the caller's sequence holds `[wA, wB]`: not the same values in
the same order as before the call. -/
theorem claim9_counterexample :
    (makeMerkleTreeM testHash [wB, wA]).map (fun r => r.1) = .ok [wA, wB] ∧
      [wA, wB] ≠ [wB, wA] := by
  exact ⟨by decide, by decide⟩

/-- Claim C9 amended: after a successful `makeMerkleTree` call the
caller's sequence holds the same values as before the call, but sorted
ascending by `bytes.Compare` (in particular a permutation of the input);
it is unchanged only when the input was already sorted. -/
theorem claim9_amended (k : Bytes → Bytes) (leaves lv tree : List Bytes)
    (ht : makeMerkleTreeM k leaves = .ok (lv, tree)) :
    lv.Perm leaves ∧ lv.Sorted bytesLeP := by
  obtain ⟨hlv, -, -, -, -⟩ := makeMerkleTreeM_ok k leaves lv tree ht
  subst hlv
  exact ⟨List.perm_insertionSort bytesLeP leaves,
    List.sorted_insertionSort bytesLeP leaves⟩

/-- The tree built from `[wB, wA]` under `testHash`. -/
def wTree2 : List Bytes := [List.replicate 32 96, wB, wA]

/-- Witness for the amended claim C9 at a concrete input. -/
theorem claim9_amended_witness : [wA, wB].Perm [wB, wA] ∧ [wA, wB].Sorted bytesLeP :=
  claim9_amended testHash [wB, wA] [wA, wB] wTree2 (by decide)

/-- Lemma: `countFalse` is bounded by the number of flags. -/
theorem countFalse_le (flags : List Bool) : countFalse flags ≤ flags.length := by
  induction flags with
  | nil => simp [countFalse]
  | cons f fs ih =>
    unfold countFalse
    by_cases hf : f
    · rw [if_pos hf]; simp; omega
    · rw [if_neg hf]; simp; omega

/-- If the counts balance exactly (`countFalse flags = proof.length` on
top of the `leaves+proof = flags+1` equation), the replay loop never
underflows: it consumes the whole proof and ends with a single value. -/
theorem replayLoop_total (k : Bytes → Bytes) :
    ∀ (flags : List Bool) (stack proof : List Bytes),
    stack.length + proof.length = flags.length + 1 →
    countFalse flags = proof.length →
    ∃ st, replayLoop k flags stack proof = .ok (st, []) ∧ st.length = 1 := by
  intro flags
  induction flags with
  | nil =>
    intro stack proof hlen hcf
    unfold countFalse at hcf
    have hp : proof = [] := List.length_eq_zero.mp (by omega)
    subst hp
    refine ⟨stack, rfl, ?_⟩
    simp at hlen
    omega
  | cons f fs ih =>
    intro stack proof hlen hcf
    unfold countFalse at hcf
    have hcfle := countFalse_le fs
    by_cases hf : f
    · subst hf
      rw [if_pos rfl] at hcf
      rcases stack with _ | ⟨a, _ | ⟨b, st2⟩⟩
      · simp at hlen; omega
      · simp at hlen; omega
      · have hstep : replayLoop k (true :: fs) (a :: b :: st2) proof =
            replayLoop k fs (st2 ++ [hashPair k a b]) proof := rfl
        rw [hstep]
        apply ih
        · simp at hlen ⊢; omega
        · omega
    · have hf' : f = false := by simpa using hf
      subst hf'
      rw [if_neg (by simp)] at hcf
      rcases proof with _ | ⟨b, pr1⟩
      · simp at hcf
      · rcases stack with _ | ⟨a, st1⟩
        · simp at hlen hcf; omega
        · have hstep : replayLoop k (false :: fs) (a :: st1) (b :: pr1) =
              replayLoop k fs (st1 ++ [hashPair k a b]) pr1 := rfl
          rw [hstep]
          apply ih
          · simp at hlen ⊢; omega
          · simp at hcf; omega

/-- Claim C10 counterexample: the multiproof
`(leaves = [wA], proof = [wC], flags = [true])` is made of 32-byte values
and passes both shape checks, yet the replay loop reads the front of the
empty value queue when handling the `true` flag: in Go this is a runtime
index-out-of-range panic, so `processMultiProof` does not return a value. -/
theorem claim10_counterexample :
    countFalse [true] ≤ [wC].length ∧
      [wA].length + [wC].length = [true].length + 1 ∧
      processMultiProof testHash ⟨[wA], [wC], [true]⟩ = .abort "index out of range" := by
  exact ⟨by decide, by decide, by decide⟩

/-- Claim C10 amended: with the count condition strengthened so that the
number of `false` flags EQUALS `len(proof)` (or the flag list is empty;
`getMultiProof` only produces such multiproofs), the replay loop never
reads the front of an empty sequence and `processMultiProof` returns a
value for every such input. -/
theorem claim10_amended (k : Bytes → Bytes) (mp : MultiProof)
    (h32L : ∀ l ∈ mp.Leaves, l.length = 32)
    (h32P : ∀ p ∈ mp.Proof, p.length = 32)
    (hshape : mp.Leaves.length + mp.Proof.length = mp.ProofFlags.length + 1)
    (hexact : mp.ProofFlags = [] ∨ countFalse mp.ProofFlags = mp.Proof.length) :
    ∃ v, processMultiProof k mp = .ok v := by
  have hany1 : (mp.Leaves.any fun l => !isValidMerkleNode l) = false := by
    rw [List.any_eq_false]
    intro l hl
    rw [(isValidMerkleNode_iff l).mpr (h32L l hl)]
    simp
  have hany2 : (mp.Proof.any fun p => !isValidMerkleNode p) = false := by
    rw [List.any_eq_false]
    intro p hp
    rw [(isValidMerkleNode_iff p).mpr (h32P p hp)]
    simp
  unfold processMultiProof
  rw [if_neg (by rw [hany1]; simp), if_neg (by rw [hany2]; simp)]
  have hcf : ¬ (mp.Proof.length < countFalse mp.ProofFlags) := by
    rcases hexact with he | he
    · rw [he]; unfold countFalse; omega
    · omega
  rw [if_neg hcf, if_neg (by omega)]
  rcases hexact with he | he
  · rw [he]
    exact ⟨_, rfl⟩
  · obtain ⟨st, hst, hst1⟩ := replayLoop_total k mp.ProofFlags mp.Leaves mp.Proof hshape he
    rw [hst]
    exact ⟨_, rfl⟩

/-- Witness for the amended claim C10 at a concrete input. -/
theorem claim10_amended_witness :
    ∃ v, processMultiProof testHash ⟨[wA, wB], [], [true]⟩ = .ok v :=
  claim10_amended testHash ⟨[wA, wB], [], [true]⟩ (by decide) (by decide)
    (by decide) (Or.inr (by decide))

/-- The per-call contribution of the `getMultiProof` queue loop: final
queue, proof elements appended during the run, flags appended during the
run.  Related to `multiLoop` by `multiLoop_eq_genSteps`. -/
def genSteps (tree : List Bytes) (stack : List Nat) :
    List Nat × List Bytes × List Bool :=
  match stack with
  | [] => ([], [], [])
  | j :: rest =>
    if _hj : j = 0 then (j :: rest, [], [])
    else
      match rest with
      | s' :: rest' =>
        if siblingIdx j = s' then
          let r := genSteps tree (rest' ++ [parentIdx j])
          (r.1, r.2.1, true :: r.2.2)
        else
          let r := genSteps tree ((s' :: rest') ++ [parentIdx j])
          (r.1, tree.getD (siblingIdx j) [] :: r.2.1, false :: r.2.2)
      | [] =>
        let r := genSteps tree [parentIdx j]
        (r.1, tree.getD (siblingIdx j) [] :: r.2.1, false :: r.2.2)
termination_by stack.sum
decreasing_by
  all_goals simp only [List.sum_cons, List.sum_append, List.sum_nil, parentIdx]
  all_goals omega

theorem multiLoop_nil (tree : List Bytes) (proof : List Bytes) (flags : List Bool) :
    multiLoop tree [] proof flags = ([], proof, flags) := by
  simp [multiLoop]

theorem multiLoop_zero (tree : List Bytes) (rest : List Nat) (proof : List Bytes)
    (flags : List Bool) : multiLoop tree (0 :: rest) proof flags = (0 :: rest, proof, flags) := by
  rw [multiLoop.eq_def]
  rfl

theorem multiLoop_pair (tree : List Bytes) (j s' : Nat) (rest' : List Nat)
    (proof : List Bytes) (flags : List Bool) (hj : j ≠ 0) (hs : siblingIdx j = s') :
    multiLoop tree (j :: s' :: rest') proof flags =
      multiLoop tree (rest' ++ [parentIdx j]) proof (flags ++ [true]) := by
  conv_lhs => rw [multiLoop]
  rw [dif_neg hj, if_pos hs]

theorem multiLoop_nopair (tree : List Bytes) (j s' : Nat) (rest' : List Nat)
    (proof : List Bytes) (flags : List Bool) (hj : j ≠ 0) (hs : siblingIdx j ≠ s') :
    multiLoop tree (j :: s' :: rest') proof flags =
      multiLoop tree ((s' :: rest') ++ [parentIdx j])
        (proof ++ [tree.getD (siblingIdx j) []]) (flags ++ [false]) := by
  conv_lhs => rw [multiLoop]
  rw [dif_neg hj, if_neg hs]

theorem multiLoop_single (tree : List Bytes) (j : Nat) (proof : List Bytes)
    (flags : List Bool) (hj : j ≠ 0) :
    multiLoop tree [j] proof flags =
      multiLoop tree [parentIdx j] (proof ++ [tree.getD (siblingIdx j) []])
        (flags ++ [false]) := by
  conv_lhs => rw [multiLoop]
  rw [dif_neg hj]

theorem genSteps_nil (tree : List Bytes) : genSteps tree [] = ([], [], []) := by
  simp [genSteps]

theorem genSteps_zero (tree : List Bytes) (rest : List Nat) :
    genSteps tree (0 :: rest) = (0 :: rest, [], []) := by
  rw [genSteps.eq_def]
  rfl

theorem genSteps_pair (tree : List Bytes) (j s' : Nat) (rest' : List Nat)
    (hj : j ≠ 0) (hs : siblingIdx j = s') :
    genSteps tree (j :: s' :: rest') =
      ((genSteps tree (rest' ++ [parentIdx j])).1,
        (genSteps tree (rest' ++ [parentIdx j])).2.1,
        true :: (genSteps tree (rest' ++ [parentIdx j])).2.2) := by
  conv_lhs => rw [genSteps]
  rw [dif_neg hj, if_pos hs]

theorem genSteps_nopair (tree : List Bytes) (j s' : Nat) (rest' : List Nat)
    (hj : j ≠ 0) (hs : siblingIdx j ≠ s') :
    genSteps tree (j :: s' :: rest') =
      ((genSteps tree ((s' :: rest') ++ [parentIdx j])).1,
        tree.getD (siblingIdx j) [] ::
          (genSteps tree ((s' :: rest') ++ [parentIdx j])).2.1,
        false :: (genSteps tree ((s' :: rest') ++ [parentIdx j])).2.2) := by
  conv_lhs => rw [genSteps]
  rw [dif_neg hj, if_neg hs]

theorem genSteps_single (tree : List Bytes) (j : Nat) (hj : j ≠ 0) :
    genSteps tree [j] =
      ((genSteps tree [parentIdx j]).1,
        tree.getD (siblingIdx j) [] :: (genSteps tree [parentIdx j]).2.1,
        false :: (genSteps tree [parentIdx j]).2.2) := by
  conv_lhs => rw [genSteps]
  rw [dif_neg hj]

/-- Lemma: `multiLoop` is `genSteps` with accumulators appended. -/
theorem multiLoop_eq_genSteps (tree : List Bytes) :
    ∀ (n : Nat) (stack : List Nat), stack.sum ≤ n →
      ∀ (proof : List Bytes) (flags : List Bool),
      multiLoop tree stack proof flags =
        ((genSteps tree stack).1, proof ++ (genSteps tree stack).2.1,
          flags ++ (genSteps tree stack).2.2) := by
  intro n
  induction n with
  | zero =>
    intro stack hs proof flags
    rcases stack with _ | ⟨j, rest⟩
    · rw [multiLoop_nil, genSteps_nil]; simp
    · have hj : j = 0 := by simp only [List.sum_cons] at hs; omega
      subst hj
      rw [multiLoop_zero, genSteps_zero]; simp
  | succ n ih =>
    intro stack hs proof flags
    rcases stack with _ | ⟨j, rest⟩
    · rw [multiLoop_nil, genSteps_nil]; simp
    · by_cases hj : j = 0
      · subst hj
        rw [multiLoop_zero, genSteps_zero]; simp
      · have hple : parentIdx j ≤ j - 1 := by unfold parentIdx; omega
        rcases rest with _ | ⟨s', rest'⟩
        · rw [multiLoop_single tree j proof flags hj, genSteps_single tree j hj]
          rw [ih [parentIdx j] (by simp only [List.sum_cons, List.sum_nil] at hs ⊢; omega)]
          simp
        · by_cases hsib : siblingIdx j = s'
          · rw [multiLoop_pair tree j s' rest' proof flags hj hsib,
              genSteps_pair tree j s' rest' hj hsib]
            rw [ih (rest' ++ [parentIdx j])
              (by simp only [List.sum_cons, List.sum_append, List.sum_nil] at hs ⊢; omega)]
            simp
          · rw [multiLoop_nopair tree j s' rest' proof flags hj hsib,
              genSteps_nopair tree j s' rest' hj hsib]
            rw [ih ((s' :: rest') ++ [parentIdx j])
              (by simp only [List.sum_cons, List.sum_append, List.sum_nil] at hs ⊢; omega)]
            simp

/-- Number of `true` flags (auxiliary for counting). -/
def countTrue : List Bool → Nat
  | [] => 0
  | f :: fs => (if f then 1 else 0) + countTrue fs

theorem countTrue_add_countFalse (flags : List Bool) :
    countTrue flags + countFalse flags = flags.length := by
  induction flags with
  | nil => rfl
  | cons f fs ih =>
    unfold countTrue countFalse
    by_cases hf : f
    · rw [if_pos hf, if_pos hf]; simp; omega
    · rw [if_neg hf, if_neg hf]; simp; omega

/-- Counting invariants of the queue loop: each `true` flag shrinks the
queue by one, and each proof element corresponds to one `false` flag. -/
theorem genSteps_counts (tree : List Bytes) :
    ∀ (n : Nat) (stack : List Nat), stack.sum ≤ n →
      (genSteps tree stack).1.length + countTrue (genSteps tree stack).2.2 =
          stack.length ∧
        (genSteps tree stack).2.1.length = countFalse (genSteps tree stack).2.2 := by
  intro n
  induction n with
  | zero =>
    intro stack hs
    rcases stack with _ | ⟨j, rest⟩
    · rw [genSteps_nil]; exact ⟨rfl, rfl⟩
    · have hj : j = 0 := by simp only [List.sum_cons] at hs; omega
      subst hj
      rw [genSteps_zero]
      exact ⟨by simp [countTrue], by simp [countFalse]⟩
  | succ n ih =>
    intro stack hs
    rcases stack with _ | ⟨j, rest⟩
    · rw [genSteps_nil]; exact ⟨rfl, rfl⟩
    · by_cases hj : j = 0
      · subst hj
        rw [genSteps_zero]
        exact ⟨by simp [countTrue], by simp [countFalse]⟩
      · have hple : parentIdx j ≤ j - 1 := by unfold parentIdx; omega
        rcases rest with _ | ⟨s', rest'⟩
        · rw [genSteps_single tree j hj]
          obtain ⟨h1, h2⟩ := ih [parentIdx j]
            (by simp only [List.sum_cons, List.sum_nil] at hs ⊢; omega)
          refine ⟨?_, ?_⟩
          · simp only [countTrue, if_neg (by simp : ¬ (false = true))] at h1 ⊢
            simp at h1 ⊢
            omega
          · simp only [countFalse, if_neg (by simp : ¬ (false = true))]
            simp
            omega
        · by_cases hsib : siblingIdx j = s'
          · rw [genSteps_pair tree j s' rest' hj hsib]
            obtain ⟨h1, h2⟩ := ih (rest' ++ [parentIdx j])
              (by simp only [List.sum_cons, List.sum_append, List.sum_nil] at hs ⊢; omega)
            refine ⟨?_, ?_⟩
            · simp only [countTrue, if_pos rfl]
              simp at h1 ⊢
              omega
            · simp only [countFalse, if_pos rfl]
              simpa using h2
          · rw [genSteps_nopair tree j s' rest' hj hsib]
            obtain ⟨h1, h2⟩ := ih ((s' :: rest') ++ [parentIdx j])
              (by simp only [List.sum_cons, List.sum_append, List.sum_nil] at hs ⊢; omega)
            refine ⟨?_, ?_⟩
            · simp only [countTrue, if_neg (by simp : ¬ (false = true))]
              simp at h1 ⊢
              omega
            · simp only [countFalse, if_neg (by simp : ¬ (false = true))]
              simp at h2 ⊢
              omega

/-- Every proof element produced by the queue loop is a stored tree
value (the sibling reads stay in range). -/
theorem genSteps_proof_mem (tree : List Bytes) (hodd : tree.length % 2 = 1) :
    ∀ (n : Nat) (stack : List Nat), stack.sum ≤ n →
      (∀ j ∈ stack, j < tree.length) →
      ∀ x ∈ (genSteps tree stack).2.1, ∃ s, s < tree.length ∧ x = tree.getD s [] := by
  intro n
  induction n with
  | zero =>
    intro stack hs hb x hx
    rcases stack with _ | ⟨j, rest⟩
    · rw [genSteps_nil] at hx; cases hx
    · have hj : j = 0 := by simp only [List.sum_cons] at hs; omega
      subst hj
      rw [genSteps_zero] at hx; cases hx
  | succ n ih =>
    intro stack hs hb x hx
    rcases stack with _ | ⟨j, rest⟩
    · rw [genSteps_nil] at hx; cases hx
    · by_cases hj : j = 0
      · subst hj
        rw [genSteps_zero] at hx; cases hx
      · have hple : parentIdx j ≤ j - 1 := by unfold parentIdx; omega
        have hjl : j < tree.length := hb j (by simp)
        have hsl : siblingIdx j < tree.length :=
          siblingIdx_lt tree.length j hodd (by omega) hjl
        rcases rest with _ | ⟨s', rest'⟩
        · rw [genSteps_single tree j hj] at hx
          rcases List.mem_cons.mp hx with hx | hx
          · exact ⟨siblingIdx j, hsl, hx⟩
          · refine ih [parentIdx j]
              (by simp only [List.sum_cons, List.sum_nil] at hs ⊢; omega) ?_ x hx
            intro a ha
            simp at ha
            omega
        · by_cases hsib : siblingIdx j = s'
          · rw [genSteps_pair tree j s' rest' hj hsib] at hx
            refine ih (rest' ++ [parentIdx j])
              (by simp only [List.sum_cons, List.sum_append, List.sum_nil] at hs ⊢; omega)
              ?_ x hx
            intro a ha
            rcases List.mem_append.mp ha with ha | ha
            · exact hb a (by simp [ha])
            · simp at ha; omega
          · rw [genSteps_nopair tree j s' rest' hj hsib] at hx
            rcases List.mem_cons.mp hx with hx | hx
            · exact ⟨siblingIdx j, hsl, hx⟩
            · refine ih ((s' :: rest') ++ [parentIdx j])
                (by simp only [List.sum_cons, List.sum_append, List.sum_nil] at hs ⊢; omega)
                ?_ x hx
              intro a ha
              rcases List.mem_append.mp ha with ha | ha
              · exact hb a (by simp [ha])
              · simp at ha; omega

/-- Simulation between proof generation and verification: replaying the
flags/proof produced by the queue loop, starting from the tree values at
the queued indices, succeeds and ends with the tree values at the final
queue (leaving any extra proof elements untouched). -/
theorem genSteps_replay (k : Bytes → Bytes) (tree : List Bytes)
    (hodd : tree.length % 2 = 1) (hh : hashOk k tree) :
    ∀ (n : Nat) (stack : List Nat), stack.sum ≤ n →
      (∀ j ∈ stack, j < tree.length) →
      ∀ (rest : List Bytes),
      replayLoop k (genSteps tree stack).2.2
          (stack.map (fun j => tree.getD j []))
          ((genSteps tree stack).2.1 ++ rest) =
        .ok ((genSteps tree stack).1.map (fun j => tree.getD j []), rest) := by
  intro n
  induction n with
  | zero =>
    intro stack hs hb rest
    rcases stack with _ | ⟨j, rest0⟩
    · rw [genSteps_nil]; rfl
    · have hj : j = 0 := by simp only [List.sum_cons] at hs; omega
      subst hj
      rw [genSteps_zero]; rfl
  | succ n ih =>
    intro stack hs hb rest
    rcases stack with _ | ⟨j, rest0⟩
    · rw [genSteps_nil]; rfl
    · by_cases hj : j = 0
      · subst hj
        rw [genSteps_zero]; rfl
      · have hple : parentIdx j ≤ j - 1 := by unfold parentIdx; omega
        have hjl : j < tree.length := hb j (by simp)
        have hpar : hashPair k (tree.getD j []) (tree.getD (siblingIdx j) []) =
            tree.getD (parentIdx j) [] :=
          hashPair_sibling k tree hodd hh j (by omega) hjl
        rcases rest0 with _ | ⟨s', rest'⟩
        · rw [genSteps_single tree j hj]
          have hstep : replayLoop k
              (false :: (genSteps tree [parentIdx j]).2.2)
              ([j].map (fun i => tree.getD i []))
              ((tree.getD (siblingIdx j) [] :: (genSteps tree [parentIdx j]).2.1) ++ rest) =
              replayLoop k (genSteps tree [parentIdx j]).2.2
                ([] ++ [hashPair k (tree.getD j []) (tree.getD (siblingIdx j) [])])
                ((genSteps tree [parentIdx j]).2.1 ++ rest) := rfl
          rw [hstep, hpar]
          have := ih [parentIdx j]
            (by simp only [List.sum_cons, List.sum_nil] at hs ⊢; omega)
            (by intro a ha; simp at ha; omega) rest
          simpa using this
        · by_cases hsib : siblingIdx j = s'
          · rw [genSteps_pair tree j s' rest' hj hsib]
            have hstep : replayLoop k
                (true :: (genSteps tree (rest' ++ [parentIdx j])).2.2)
                ((j :: s' :: rest').map (fun i => tree.getD i []))
                ((genSteps tree (rest' ++ [parentIdx j])).2.1 ++ rest) =
                replayLoop k (genSteps tree (rest' ++ [parentIdx j])).2.2
                  (rest'.map (fun i => tree.getD i []) ++
                    [hashPair k (tree.getD j []) (tree.getD s' [])])
                  ((genSteps tree (rest' ++ [parentIdx j])).2.1 ++ rest) := rfl
            rw [hstep, ← hsib, hpar]
            have hmap : rest'.map (fun i => tree.getD i []) ++ [tree.getD (parentIdx j) []] =
                (rest' ++ [parentIdx j]).map (fun i => tree.getD i []) := by
              simp
            rw [hmap]
            refine ih (rest' ++ [parentIdx j])
              (by simp only [List.sum_cons, List.sum_append, List.sum_nil] at hs ⊢; omega)
              ?_ rest
            intro a ha
            rcases List.mem_append.mp ha with ha | ha
            · exact hb a (by simp [ha])
            · simp at ha; omega
          · rw [genSteps_nopair tree j s' rest' hj hsib]
            have hstep : replayLoop k
                (false :: (genSteps tree ((s' :: rest') ++ [parentIdx j])).2.2)
                ((j :: s' :: rest').map (fun i => tree.getD i []))
                ((tree.getD (siblingIdx j) [] ::
                  (genSteps tree ((s' :: rest') ++ [parentIdx j])).2.1) ++ rest) =
                replayLoop k (genSteps tree ((s' :: rest') ++ [parentIdx j])).2.2
                  ((s' :: rest').map (fun i => tree.getD i []) ++
                    [hashPair k (tree.getD j []) (tree.getD (siblingIdx j) [])])
                  ((genSteps tree ((s' :: rest') ++ [parentIdx j])).2.1 ++ rest) := rfl
            rw [hstep, hpar]
            have hmap : (s' :: rest').map (fun i => tree.getD i []) ++
                [tree.getD (parentIdx j) []] =
                ((s' :: rest') ++ [parentIdx j]).map (fun i => tree.getD i []) := by
              simp
            rw [hmap]
            refine ih ((s' :: rest') ++ [parentIdx j])
              (by simp only [List.sum_cons, List.sum_append, List.sum_nil] at hs ⊢; omega)
              ?_ rest
            intro a ha
            rcases List.mem_append.mp ha with ha | ha
            · exact hb a (by simp [ha])
            · simp at ha; omega

/-- Predicate: `x` is a strict ancestor of `y` in the heap indexing: repeatedly
taking parents from `y` reaches `x` (in one-based indices, repeated
halving). -/
def strictAnc (x y : Nat) : Prop := ∃ c, 0 < c ∧ (y + 1) / 2 ^ c = x + 1

/-- The parent map is halving in one-based indices. -/
theorem parentIdx_one_based (j : Nat) (hj : j ≠ 0) :
    (j + 1) / 2 = parentIdx j + 1 := by
  unfold parentIdx
  omega

/-- A non-root node is one of the two children of its parent. -/
theorem child_of_parentIdx (j : Nat) (hj : j ≠ 0) :
    j = 2 * parentIdx j + 1 ∨ j = 2 * parentIdx j + 2 := by
  unfold parentIdx
  omega

/-- The parent is a strict ancestor. -/
theorem strictAnc_parentIdx (j : Nat) (hj : j ≠ 0) : strictAnc (parentIdx j) j :=
  ⟨1, by omega, by rw [pow_one]; exact parentIdx_one_based j hj⟩

/-- A strict ancestor has a strictly smaller index. -/
theorem strictAnc_lt (x y : Nat) (h : strictAnc x y) : x < y := by
  obtain ⟨c, hc, he⟩ := h
  have h2 : 2 ≤ 2 ^ c := by
    calc 2 = 2 ^ 1 := (pow_one 2).symm
    _ ≤ 2 ^ c := Nat.pow_le_pow_right (by omega) hc
  have hle : (y + 1) / 2 ^ c ≤ (y + 1) / 2 := Nat.div_le_div_left h2 (by omega)
  rw [he] at hle
  omega

/-- Ancestors transfer down through the parent map. -/
theorem strictAnc_of_parent (x j : Nat) (hj : j ≠ 0)
    (h : strictAnc x (parentIdx j)) : strictAnc x j := by
  obtain ⟨c, hc, he⟩ := h
  refine ⟨c + 1, by omega, ?_⟩
  rw [pow_succ, Nat.mul_comm, ← Nat.div_div_eq_div_mul, parentIdx_one_based j hj]
  exact he

/-- An ancestor of a non-root node is its parent or an ancestor of its
parent. -/
theorem strictAnc_step (x j : Nat) (hj : j ≠ 0) (h : strictAnc x j) :
    x = parentIdx j ∨ strictAnc x (parentIdx j) := by
  obtain ⟨c, hc, he⟩ := h
  rcases Nat.eq_or_lt_of_le hc with hc1 | hc1
  · left
    rw [← hc1, pow_one, parentIdx_one_based j hj] at he
    omega
  · right
    refine ⟨c - 1, by omega, ?_⟩
    have hsplit : (j + 1) / 2 ^ c = ((j + 1) / 2) / 2 ^ (c - 1) := by
      rw [Nat.div_div_eq_div_mul]
      congr 1
      rw [← pow_succ']
      congr 1
      omega
    rw [hsplit, parentIdx_one_based j hj] at he
    exact he

/-- A strict descendant of `parentIdx j` that is smaller than `j` must be
the sibling of `j`. -/
theorem strictAnc_parent_sibling (j x : Nat) (hj : j ≠ 0)
    (h : strictAnc (parentIdx j) x) (hx : x < j) : x = siblingIdx j := by
  obtain ⟨c, hc, he⟩ := h
  have hchild := child_of_parentIdx j hj
  rcases Nat.eq_or_lt_of_le hc with hc1 | hc1
  · rw [← hc1, pow_one] at he
    -- x is a direct child of parentIdx j, and x < j, so x is the other child
    unfold siblingIdx
    unfold parentIdx at he hchild
    by_cases hp2 : j % 2 = 1
    · rw [if_pos hp2]; omega
    · rw [if_neg hp2]; omega
  · exfalso
    have hge : (parentIdx j + 1) * 2 ^ c ≤ x + 1 := by
      rw [← he]
      exact Nat.div_mul_le_self _ _
    have h4 : 4 ≤ 2 ^ c := by
      calc 4 = 2 ^ 2 := by norm_num
      _ ≤ 2 ^ c := Nat.pow_le_pow_right (by omega) hc1
    have : 4 * (parentIdx j + 1) ≤ x + 1 := by nlinarith
    omega

/-- Two leaf indices are never in ancestor relation. -/
theorem strictAnc_leaves (L x y : Nat) (hx : L ≤ 2 * x + 1) (hy : y < L) :
    ¬ strictAnc x y := by
  intro h
  obtain ⟨c, hc, he⟩ := h
  have hge : (x + 1) * 2 ^ c ≤ y + 1 := by
    rw [← he]
    exact Nat.div_mul_le_self _ _
  have h2 : 2 ≤ 2 ^ c := by
    calc 2 = 2 ^ 1 := (pow_one 2).symm
    _ ≤ 2 ^ c := Nat.pow_le_pow_right (by omega) hc
  have : 2 * (x + 1) ≤ y + 1 := by nlinarith
  omega

/-- Pairwise absence of ancestor relations in the queue. -/
def noAnc (S : List Nat) : Prop :=
  S.Pairwise (fun a b => ¬ strictAnc a b ∧ ¬ strictAnc b a)

/-- The head of the queue is at most one level below its last element. -/
def spanOK (S : List Nat) : Prop :=
  ∀ h l, S.head? = some h → S.getLast? = some l → h ≤ 2 * l + 2

/-- The queue invariant of the multiproof generation loop. -/
def QInv (S : List Nat) : Prop :=
  S.Pairwise (· > ·) ∧ spanOK S ∧ noAnc S

/-- In a strictly descending list every element is at least the last. -/
theorem pairwise_gt_getLast (S : List Nat) (hp : S.Pairwise (· > ·)) (l : Nat)
    (hl : S.getLast? = some l) : ∀ a ∈ S, l ≤ a := by
  induction S with
  | nil => cases hl
  | cons x S' ih =>
    intro a ha
    rcases S' with _ | ⟨y, S''⟩
    · simp at hl ha
      omega
    · rw [List.getLast?_cons_cons] at hl
      rcases List.mem_cons.mp ha with ha | ha
      · subst ha
        have hlast := ih (List.Pairwise.sublist (by simp) hp) hl y (by simp)
        have hxy : a > y := (List.pairwise_cons.mp hp).1 y (by simp)
        omega
      · exact ih (List.Pairwise.sublist (by simp) hp) hl a ha

/-- The singleton queue satisfies the invariant. -/
theorem QInv_single (p : Nat) : QInv [p] := by
  refine ⟨by simp, ?_, by unfold noAnc; simp⟩
  intro h l hh hl
  simp at hh hl
  omega

/-- One step of the queue loop preserves the invariant: popping the head
`j` (with its sibling not left in the queue) and appending its parent. -/
theorem QInv_step (j : Nat) (hj : j ≠ 0) (R : List Nat)
    (hQ : QInv (j :: R)) (hsib : siblingIdx j ∉ R) :
    QInv (R ++ [parentIdx j]) := by
  obtain ⟨hd, hs, hn⟩ := hQ
  have hchild := child_of_parentIdx j hj
  have hanc := strictAnc_parentIdx j hj
  have hdR : R.Pairwise (· > ·) := (List.pairwise_cons.mp hd).2
  have hdj : ∀ a ∈ R, j > a := (List.pairwise_cons.mp hd).1
  have hnR : noAnc R := (List.pairwise_cons.mp hn).2
  have hnj : ∀ a ∈ R, ¬ strictAnc j a ∧ ¬ strictAnc a j :=
    (List.pairwise_cons.mp hn).1
  have hpnotmem : parentIdx j ∉ R := by
    intro hmem
    exact (hnj _ hmem).2 hanc
  rcases R with _ | ⟨r0, R0⟩
  · simpa using QInv_single (parentIdx j)
  · obtain ⟨last, hlast⟩ : ∃ last, (r0 :: R0).getLast? = some last :=
      ⟨(r0 :: R0).getLast (by simp), List.getLast?_eq_getLast _ (by simp)⟩
    have hspan : j ≤ 2 * last + 2 := by
      refine hs j last rfl ?_
      rw [List.getLast?_cons_cons]
      exact hlast
    have hple : parentIdx j ≤ last := by unfold parentIdx; omega
    have hlastle : ∀ a ∈ r0 :: R0, last ≤ a :=
      pairwise_gt_getLast _ hdR last hlast
    have hplt : ∀ a ∈ r0 :: R0, parentIdx j < a := by
      intro a ha
      have h1 := hlastle a ha
      have hne : a ≠ parentIdx j := fun he => hpnotmem (he ▸ ha)
      omega
    refine ⟨?_, ?_, ?_⟩
    · rw [List.pairwise_append]
      refine ⟨hdR, by simp, ?_⟩
      intro a ha b hb
      simp only [List.mem_singleton] at hb
      subst hb
      exact hplt a ha
    · intro h l hh hl
      rw [List.getLast?_concat] at hl
      rw [List.cons_append] at hh
      simp only [List.head?_cons, Option.some.injEq] at hh hl
      have hr0 : r0 < j := hdj r0 (by simp)
      omega
    · unfold noAnc
      rw [List.pairwise_append]
      refine ⟨hnR, by simp, ?_⟩
      intro a ha b hb
      simp only [List.mem_singleton] at hb
      subst hb
      constructor
      · intro hap
        exact (hnj a ha).2 (strictAnc_of_parent a j hj hap)
      · intro hpa
        have heq := strictAnc_parent_sibling j a hj hpa (hdj a ha)
        exact hsib (heq ▸ ha)

/-- Dropping the second element of the queue preserves the invariant. -/
theorem QInv_drop_second (j s' : Nat) (rest' : List Nat)
    (hQ : QInv (j :: s' :: rest')) : QInv (j :: rest') := by
  obtain ⟨hd, hs, hn⟩ := hQ
  have hsub : (j :: rest').Sublist (j :: s' :: rest') := by
    apply List.Sublist.cons₂
    simp
  refine ⟨List.Pairwise.sublist hsub hd, ?_, List.Pairwise.sublist hsub hn⟩
  intro h l hh hl
  simp only [List.head?_cons, Option.some.injEq] at hh
  rcases rest' with _ | ⟨r0, R0⟩
  · simp at hl
    omega
  · rw [List.getLast?_cons_cons] at hl
    have hjl := hs j l rfl (by rw [List.getLast?_cons_cons, List.getLast?_cons_cons]; exact hl)
    omega

/-- On a non-empty queue satisfying the invariant, the loop terminates
with exactly the root on the queue. -/
theorem genSteps_root (tree : List Bytes) :
    ∀ (n : Nat) (stack : List Nat), stack.sum ≤ n →
      QInv stack → stack ≠ [] → (genSteps tree stack).1 = [0] := by
  intro n
  induction n with
  | zero =>
    intro stack hs hQ hne
    rcases stack with _ | ⟨j, rest⟩
    · exact absurd rfl hne
    · have hj : j = 0 := by simp only [List.sum_cons] at hs; omega
      subst hj
      rw [genSteps_zero]
      rcases rest with _ | ⟨a, rest'⟩
      · rfl
      · have := (List.pairwise_cons.mp hQ.1).1 a (by simp)
        omega
  | succ n ih =>
    intro stack hs hQ hne
    rcases stack with _ | ⟨j, rest⟩
    · exact absurd rfl hne
    · by_cases hj : j = 0
      · subst hj
        rw [genSteps_zero]
        rcases rest with _ | ⟨a, rest'⟩
        · rfl
        · have := (List.pairwise_cons.mp hQ.1).1 a (by simp)
          omega
      · have hple : parentIdx j ≤ j - 1 := by unfold parentIdx; omega
        rcases rest with _ | ⟨s', rest'⟩
        · rw [genSteps_single tree j hj]
          refine ih [parentIdx j]
            (by simp only [List.sum_cons, List.sum_nil] at hs ⊢; omega)
            (QInv_single _) (by simp)
        · by_cases hsib : siblingIdx j = s'
          · rw [genSteps_pair tree j s' rest' hj hsib]
            have htail : (s' :: rest').Pairwise (· > ·) :=
              (List.pairwise_cons.mp hQ.1).2
            have hnotmem : siblingIdx j ∉ rest' := by
              rw [hsib]
              intro hmem
              exact absurd ((List.pairwise_cons.mp htail).1 s' hmem) (by omega)
            refine ih (rest' ++ [parentIdx j])
              (by simp only [List.sum_cons, List.sum_append, List.sum_nil] at hs ⊢; omega)
              (QInv_step j hj rest' (QInv_drop_second j s' rest' hQ) hnotmem)
              (by simp)
          · rw [genSteps_nopair tree j s' rest' hj hsib]
            have htail : (s' :: rest').Pairwise (· > ·) :=
              (List.pairwise_cons.mp hQ.1).2
            have hjgt : ∀ a ∈ s' :: rest', j > a := (List.pairwise_cons.mp hQ.1).1
            have hnotmem : siblingIdx j ∉ s' :: rest' := by
              intro hmem
              rcases List.mem_cons.mp hmem with hmem | hmem
              · exact hsib hmem
              · have h1 : s' > siblingIdx j := (List.pairwise_cons.mp htail).1 _ hmem
                have h2 : j > s' := hjgt s' (by simp)
                unfold siblingIdx at h1
                by_cases hp2 : j % 2 = 1
                · rw [if_pos hp2] at h1; omega
                · rw [if_neg hp2] at h1; omega
            refine ih ((s' :: rest') ++ [parentIdx j])
              (by simp only [List.sum_cons, List.sum_append, List.sum_nil] at hs ⊢; omega)
              (QInv_step j hj (s' :: rest') hQ hnotmem)
              (by simp)

theorem head?_mem_self {α : Type} (l : List α) (a : α) (h : l.head? = some a) :
    a ∈ l := by
  cases l with
  | nil => cases h
  | cons x xs =>
    simp only [List.head?_cons, Option.some.injEq] at h
    simp [h]

theorem getLast?_mem_self {α : Type} (l : List α) (a : α) (h : l.getLast? = some a) :
    a ∈ l := by
  induction l with
  | nil => cases h
  | cons x xs ih =>
    rcases xs with _ | ⟨y, ys⟩
    · simp at h
      simp [h]
    · rw [List.getLast?_cons_cons] at h
      exact List.mem_cons_of_mem x (ih h)

/-- Lemma: `hasDuplicateIndex` is the negation of `Nodup`. -/
theorem hasDuplicateIndex_eq_false (l : List Nat) (h : l.Nodup) :
    hasDuplicateIndex l = false := by
  induction l with
  | nil => rfl
  | cons i rest ih =>
    unfold hasDuplicateIndex
    rw [List.nodup_cons] at h
    rw [ih h.2]
    simp only [Bool.or_false]
    rw [Bool.eq_false_iff]
    intro hc
    exact h.1 (List.mem_of_elem_eq_true hc)

/-- The descending sort of a duplicate-free list of leaf indices
satisfies the queue invariant. -/
theorem QInv_initial (tree : List Bytes) (indices : List Nat)
    (hleaf : ∀ i ∈ indices, isLeafNode tree i = true)
    (hnd : indices.Nodup) : QInv (sortIndicesDesc indices) := by
  have hperm : (sortIndicesDesc indices).Perm indices :=
    List.perm_insertionSort _ _
  have hsorted : (sortIndicesDesc indices).Pairwise (· ≥ ·) :=
    List.sorted_insertionSort _ _
  have hndS : (sortIndicesDesc indices).Nodup := hperm.nodup_iff.mpr hnd
  have hleafS : ∀ i ∈ sortIndicesDesc indices,
      i < tree.length ∧ tree.length ≤ 2 * i + 1 :=
    fun i hi => (isLeafNode_iff tree i).mp (hleaf i (hperm.mem_iff.mp hi))
  refine ⟨?_, ?_, ?_⟩
  · refine (hsorted.and hndS).imp ?_
    intro a b hab
    exact lt_of_le_of_ne hab.1 (Ne.symm hab.2)
  · intro h l hh hl
    obtain ⟨hhl, hh2⟩ := hleafS h (head?_mem_self _ _ hh)
    obtain ⟨hll, hl2⟩ := hleafS l (getLast?_mem_self _ _ hl)
    omega
  · refine List.pairwise_of_forall_mem_list ?_
    intro a ha b hb
    exact ⟨strictAnc_leaves tree.length a b (hleafS a ha).2 (hleafS b hb).1,
      strictAnc_leaves tree.length b a (hleafS b hb).2 (hleafS a ha).1⟩

/-- Claim C1: for a tree built by `makeMerkleTree` from 32-byte leaves
and any non-empty duplicate-free list of leaf indices,
`processMultiProof(getMultiProof(tree, indices))` recomputes the root
`tree[0]`. -/
theorem claim1_multiproof_roundtrip (k : Bytes → Bytes)
    (hk : ∀ x, (k x).length = 32) (leaves tree : List Bytes)
    (h32 : ∀ l ∈ leaves, l.length = 32)
    (ht : makeMerkleTree k leaves = .ok tree) (indices : List Nat)
    (hleaf : ∀ i ∈ indices, isLeafNode tree i = true)
    (hnd : indices.Nodup) (hne : indices ≠ []) :
    ∃ mp, getMultiProof tree indices = .ok mp ∧
      processMultiProof k mp = .ok (tree.getD 0 []) := by
  obtain ⟨lv, hM⟩ := makeMerkleTree_ok k leaves tree ht
  obtain ⟨hlv, hN, hlen, hhash, hleafreg⟩ := makeMerkleTreeM_ok k leaves lv tree hM
  have hn32 := makeMerkleTreeM_nodes32 k hk leaves lv tree h32 hM
  have hodd : tree.length % 2 = 1 := by omega
  set S := sortIndicesDesc indices with hSdef
  have hperm : S.Perm indices := List.perm_insertionSort _ _
  have hSne : S ≠ [] := by
    intro hc
    exact hne (List.Perm.eq_nil (hc ▸ hperm.symm))
  have hQ := QInv_initial tree indices hleaf hnd
  have hb : ∀ j ∈ S, j < tree.length := fun j hj =>
    ((isLeafNode_iff tree j).mp (hleaf j (hperm.mem_iff.mp hj))).1
  obtain ⟨hc1, hc2⟩ := genSteps_counts tree S.sum S (le_refl _)
  have hroot := genSteps_root tree S.sum S (le_refl _) hQ hSne
  have hbridge := multiLoop_eq_genSteps tree S.sum S (le_refl _) [] []
  have hreplay := genSteps_replay k tree hodd hhash S.sum S (le_refl _) hb []
  have hanyleaf : (indices.any fun i => !isLeafNode tree i) = false := by
    rw [List.any_eq_false]
    intro i hi
    rw [hleaf i hi]
    simp
  have hdup : hasDuplicateIndex S = false :=
    hasDuplicateIndex_eq_false S (hperm.nodup_iff.mpr hnd)
  have hmp : getMultiProof tree indices =
      .ok ⟨getIndicesValues tree S, (genSteps tree S).2.1, (genSteps tree S).2.2⟩ := by
    unfold getMultiProof
    rw [if_neg (by rw [hanyleaf]; simp)]
    simp only [← hSdef, hdup, Bool.false_eq_true, if_false, hbridge]
    rw [if_neg (show ¬ S.length = 0 from fun hc => hSne (List.length_eq_zero.mp hc))]
    simp
  refine ⟨_, hmp, ?_⟩
  have hL32 : ∀ l ∈ getIndicesValues tree S, isValidMerkleNode l = true := by
    intro l hl
    unfold getIndicesValues at hl
    obtain ⟨i, hiS, hival⟩ := List.mem_map.mp hl
    rw [← hival]
    exact (isValidMerkleNode_iff _).mpr (hn32 i (hb i hiS))
  have hP32 : ∀ p ∈ (genSteps tree S).2.1, isValidMerkleNode p = true := by
    intro p hp
    obtain ⟨s, hsl, hval⟩ := genSteps_proof_mem tree hodd S.sum S (le_refl _) hb p hp
    rw [hval]
    exact (isValidMerkleNode_iff _).mpr (hn32 s hsl)
  have hLlen : (getIndicesValues tree S).length = S.length := by
    unfold getIndicesValues
    simp
  have hc1' : 1 + countTrue (genSteps tree S).2.2 = S.length := by
    rw [hroot] at hc1
    simpa using hc1
  have hct := countTrue_add_countFalse (genSteps tree S).2.2
  unfold processMultiProof
  rw [if_neg (by
    simp only []
    rw [Bool.not_eq_true, List.any_eq_false]
    intro l hl
    rw [hL32 l hl]
    simp)]
  rw [if_neg (by
    simp only []
    rw [Bool.not_eq_true, List.any_eq_false]
    intro p hp
    rw [hP32 p hp]
    simp)]
  rw [if_neg (by simp only []; omega)]
  rw [if_neg (by simp only []; omega)]
  have hreplay' : replayLoop k (genSteps tree S).2.2 (getIndicesValues tree S)
      ((genSteps tree S).2.1) = .ok ([tree.getD 0 []], []) := by
    rw [hroot] at hreplay
    have hgi : getIndicesValues tree S = S.map (fun j => tree.getD j []) := rfl
    rw [hgi]
    simpa using hreplay
  simp only []
  rw [hreplay']
  simp

/-- Claim C8: on a valid tree, a multiproof request for no indices
returns empty leaves and flags and the root as the only proof element,
and `processMultiProof` on that result returns the root. -/
theorem claim8_empty_indices (k : Bytes → Bytes) (tree : List Bytes)
    (hv : isValidMerkleTree k tree = true) :
    getMultiProof tree [] = .ok ⟨[], [tree.getD 0 []], []⟩ ∧
      processMultiProof k ⟨[], [tree.getD 0 []], []⟩ = .ok (tree.getD 0 []) := by
  unfold isValidMerkleTree at hv
  rw [Bool.and_eq_true] at hv
  obtain ⟨hall, hpos⟩ := hv
  rw [decide_eq_true_eq] at hpos
  rw [List.all_eq_true] at hall
  have h0 := hall 0 (List.mem_range.mpr hpos)
  rw [Bool.and_eq_true] at h0
  have hroot32 : isValidMerkleNode (tree.getD 0 []) = true := h0.1
  constructor
  · unfold getMultiProof
    rw [if_neg (by simp)]
    simp [sortIndicesDesc, hasDuplicateIndex, multiLoop_nil, getIndicesValues]
  · unfold processMultiProof
    rw [if_neg (by simp)]
    rw [if_neg (by
      simp only []
      rw [Bool.not_eq_true, List.any_eq_false]
      intro p hp
      simp only [List.mem_singleton] at hp
      rw [hp, Bool.not_eq_true, Bool.not_eq_false']
      exact hroot32)]
    rw [if_neg (by simp [countFalse])]
    rw [if_neg (by simp)]
    rfl

/-- The tree built from `[wA, wB, wC]` under `testHash`. -/
def wTree3 : List Bytes :=
  [List.replicate 32 156, List.replicate 32 96, wC, wB, wA]

/-- Witness for claim C1 at a concrete input. -/
theorem claim1_witness :
    ∃ mp, getMultiProof wTree3 [4, 3] = .ok mp ∧
      processMultiProof testHash mp = .ok (wTree3.getD 0 []) :=
  claim1_multiproof_roundtrip testHash testHash_length [wA, wB, wC] wTree3
    (by decide) (by decide) [4, 3] (by decide) (by decide) (by decide)

/-- Witness for claim C2 at a concrete input. -/
theorem claim2_witness :
    ∃ prf, getProof wTree3 3 = .ok prf ∧
      processProof testHash (wTree3.getD 3 []) prf = .ok (wTree3.getD 0 []) :=
  claim2_processProof_getProof testHash testHash_length [wA, wB, wC] wTree3
    (by decide) (by decide) 3 (by decide)

/-- Witness for claim C3 at a concrete input. -/
theorem claim3_witness : isValidMerkleTree testHash wTree3 = true :=
  claim3_isValidMerkleTree testHash testHash_length [wA, wB, wC] wTree3
    (by decide) (by decide)

/-- Witness for claim C8 at a concrete input. -/
theorem claim8_witness :
    getMultiProof [wA] [] = .ok ⟨[], [([wA] : List Bytes).getD 0 []], []⟩ ∧
      processMultiProof testHash ⟨[], [([wA] : List Bytes).getD 0 []], []⟩ =
        .ok (([wA] : List Bytes).getD 0 []) :=
  claim8_empty_indices testHash [wA] (by decide)
